import Mathlib

/-!
Verification of the NULL-ID email-proof core: a shallow embedding of

* the circom constraint circuit `src/WEB/circuit/circuits/eml_receiver.circom`
  (templates `ValidateByteRange`, `EncodeBytesToField`,
  `SequentialPoseidonHash`, `PatternMatcher`), and
* the off-chain input builder `buildCircuitInput` (with helpers `pack31LE`,
  `strBytesAscii`, `oneHot`) from the email-proof page, and
* the `age`/`ofacStatus` branch of `updateField` in the Solidity
  `NULLIDRegistry` contract,

together with theorems settling the frozen claims about them.

The circuit is parametric in its prime field; we embed it over an arbitrary
`Field F` (the deployed instance uses the bn254 scalar field, which is prime).
The Poseidon permutation is an external library primitive on both sides
(circomlib / circomlibjs); both components apply the *same* two-input hash, so
it is embedded as an abstract parameter `P : F → F → F`.
-/

section Circuit

variable {F : Type} [Field F]

/-- Constraint set of circomlib's `Num2Bits(n)` as invoked by
`ValidateByteRange` (the template itself lives in the external
`bitify.circom`; modelled from the spec's words "Each byte must be
constrained to its 8-bit decomposition": output bits `b_j` with
`b_j * (b_j - 1) === 0` and `Σ b_j * 2^j === in`).  Satisfiability in the
variable `bits` is what "a witness exists" means for the range check. -/
def Num2BitsSat (n : ℕ) (v : F) : Prop :=
  ∃ bits : ℕ → F,
    (∀ j < n, bits j * (bits j - 1) = 0) ∧
    (List.range n).foldl (fun acc j => acc + bits j * 2 ^ j) 0 = v

/-- Constraints of template `ValidateByteRange` (circuit lines 37-43): the
input is fed to `Num2Bits(8)`; the `is_valid <== 1` output adds no
constraint on the input. -/
def ValidateByteRangeSat (v : F) : Prop := Num2BitsSat 8 v

/-- The value computed for `field_element` by template `EncodeBytesToField`
(circuit lines 57-63): little-endian positional weighting, byte `j`
contributing `byte_array[j] * 256^j` (`accumulator += byte_array[j] *
multiplier` with `multiplier = 256^j`). -/
def encodeBytesToFieldVal (bytes : ℕ → F) : F :=
  (List.range 31).foldl (fun acc j => acc + bytes j * 256 ^ j) 0

/-- The 31 bytes handed to chunk `c`'s `EncodeBytesToField` by
`SequentialPoseidonHash` (circuit lines 73-84): `email_data[c*31+k]` when
`c*31+k < maxLength`, the constant 0 otherwise. -/
def chunkBytes (eml : ℕ → F) (maxLength c k : ℕ) : F :=
  if c * 31 + k < maxLength then eml (c * 31 + k) else 0

/-- The hash value determined by the `SequentialPoseidonHash` component
chain (circuit lines 86-93): `h_0 = 0`, `h_{i+1} = P(h_i, chunk_i)`,
result `h_{chunkCount}`. -/
def seqPoseidonFold (P : F → F → F) (eml : ℕ → F) (maxLength chunkCount : ℕ) : F :=
  (List.range chunkCount).foldl
    (fun h c => P h (encodeBytesToFieldVal (chunkBytes eml maxLength c))) 0

/-- Constraint set of template `SequentialPoseidonHash` (circuit lines
66-94) on inputs `email_data` and output `hash_result`.  Every internal
signal (`field_element`, the Poseidon chain) is `<==`-assigned, hence
determined; the residual constraints are the byte range checks of each
`EncodeBytesToField` and the equation pinning `hash_result` to the fold. -/
def SequentialPoseidonHashSat (P : F → F → F) (maxLength chunkCount : ℕ)
    (eml : ℕ → F) (hash_result : F) : Prop :=
  (∀ c < chunkCount, ∀ k < 31, ValidateByteRangeSat (chunkBytes eml maxLength c k)) ∧
  hash_result = seqPoseidonFold P eml maxLength chunkCount

/-- Constraint set of template `PatternMatcher(MAX_EMAIL_LEN, PATTERN_LEN)`
(circuit lines 96-130), with `VALID_POSITIONS = maxLen - patLen + 1`:
booleanity of `selector[t]` for `t < VALID_POSITIONS`, the selector sum
over the valid window equal to 1, `selector[u] === 0` for
`VALID_POSITIONS ≤ u < maxLen`, and for each pattern position `i` and
candidate start `t` the product constraint
`selector[t] * (email_data[t+i] - pattern[i]) === 0`.
(`match_found <== 1` adds no constraint on the inputs.) -/
def PatternMatcherSat (maxLen patLen : ℕ) (eml pattern selector : ℕ → F) : Prop :=
  (∀ t < maxLen - patLen + 1, selector t * (selector t - 1) = 0) ∧
  (List.range (maxLen - patLen + 1)).foldl (fun acc t => acc + selector t) 0 = 1 ∧
  (∀ u < maxLen, maxLen - patLen + 1 ≤ u → selector u = 0) ∧
  (∀ i < patLen, ∀ t < maxLen - patLen + 1, selector t * (eml (t + i) - pattern i) = 0)

end Circuit

section Builder

variable {F : Type} [Field F]

/-- Helper `pack31LE` of the builder: `acc += BigInt(bytes[i] || 0) * mul`
with `mul = 256^i`, over `i < 31`; a missing entry (`bytes[i]` undefined)
contributes 0, which `List.getD _ _ 0` reproduces. -/
def pack31LE (bytes : List ℕ) : ℕ :=
  (List.range 31).foldl (fun acc i => acc + bytes.getD i 0 * 256 ^ i) 0

/-- The builder's buffer normalisation (`buildCircuitInput` lines 107-109):
`Array.from(bytes.slice(0, MAX))` followed by `while (eml.length < MAX)
eml.push(0)` — truncate to the first 8192 bytes, then zero-pad on the
right to exactly 8192. -/
def padTruncate (bytes : List ℕ) : List ℕ :=
  bytes.take 8192 ++ List.replicate (8192 - bytes.length) 0

/-- The builder's commitment loop (`buildCircuitInput` lines 129-134):
`h = 0n; for (off = 0; off < MAX; off += 31) h = poseidon([F.e(h),
F.e(pack31LE(eml.slice(off, off+31)))])`, i.e. 265 chunks at offsets
`off = c * 31`.  `eml.slice(off, off+31)` is `(eml.drop off).take 31`;
the chunk value (< 256^31) enters the field by the canonical cast. -/
def buildCommitment (P : F → F → F) (eml : List ℕ) : F :=
  (List.range 265).foldl
    (fun h c => P h ((pack31LE ((eml.drop (c * 31)).take 31) : ℕ) : F)) 0

/-- Linear first-occurrence scan underlying `Buffer.prototype.indexOf`:
starting at position `t` with `fuel` candidate positions left, return the
first `u` at which the full pattern occurs (`(buf.drop u).take pat.length
= pat`), else `none`. -/
def findPatternFrom (buf pat : List ℕ) : ℕ → ℕ → Option ℕ
  | 0, _ => none
  | fuel + 1, t =>
    if (buf.drop t).take pat.length = pat then some t
    else findPatternFrom buf pat fuel (t + 1)

/-- `buf.indexOf(pat)` (builder lines 117-119): index of the first full
occurrence of `pat` in `buf`, scanning candidate start positions from 0;
`none` models the return value -1. -/
def indexOfPattern (buf pat : List ℕ) : Option ℕ :=
  findPatternFrom buf pat buf.length 0

/-- `strBytesAscii('From:')` — ASCII bytes of the `fromStr` literal. -/
def fromStrBytes : List ℕ := [70, 114, 111, 109, 58]

/-- `strBytesAscii('To:')` — ASCII bytes of the `toStr` literal. -/
def toStrBytes : List ℕ := [84, 111, 58]

/-- `strBytesAscii('@gmail.com')` — ASCII bytes of the `atgStr` literal. -/
def atgStrBytes : List ℕ := [64, 103, 109, 97, 105, 108, 46, 99, 111, 109]

/-- Helper `oneHot(length, pos)` of the builder (lines 233-237): an array
of `length` zeros with `arr[pos] = 1` when `0 <= pos < length`; for `pos`
outside that range the array stays all-zero.  `List.set` writes inside
bounds and is the identity otherwise, exactly the guarded assignment. -/
def oneHot (length pos : ℕ) : List ℕ :=
  (List.replicate length 0).set pos 1

/-- The single failure of `buildCircuitInput`: the generic
`Error('Required literals not found in .eml (need From:, To:, and
@gmail.com)')` thrown when any of the three `indexOf` results is negative.
The message is a fixed string; the error carries no indication of which
pattern was missing. -/
inductive BuildError where
  | requiredLiteralsNotFound

/-- The signal assignment object returned by `buildCircuitInput`
(lines 136-145); the source stringifies every number, which changes no
numeric content. -/
structure CircuitInput (F : Type) where
  eml_commitment : F
  eml : List ℕ
  from_bytes : List ℕ
  to_bytes : List ℕ
  atg_bytes : List ℕ
  sel_from : List ℕ
  sel_to : List ℕ
  sel_atg : List ℕ

/-- The input builder `buildCircuitInput` (lines 106-148): truncate/pad to
8192 bytes, search the three literals, throw the generic error if any is
absent (before the Poseidon fold is entered), otherwise emit the full
assignment with the commitment, buffer, pattern bytes and one-hot
selectors. -/
def buildCircuitInput (P : F → F → F) (bytes : List ℕ) :
    Except BuildError (CircuitInput F) :=
  let eml := padTruncate bytes
  match indexOfPattern eml fromStrBytes, indexOfPattern eml toStrBytes,
      indexOfPattern eml atgStrBytes with
  | some f, some t, some g =>
    Except.ok
      { eml_commitment := buildCommitment P eml
        eml := eml
        from_bytes := fromStrBytes
        to_bytes := toStrBytes
        atg_bytes := atgStrBytes
        sel_from := oneHot 8192 f
        sel_to := oneHot 8192 t
        sel_atg := oneHot 8192 g }
  | _, _, _ => Except.error BuildError.requiredLiteralsNotFound

end Builder

section Registry

/-- Outcomes of a reverting Solidity call: a failed `require` with its
message, or a checked-arithmetic panic (Solidity >= 0.8 reverts on
underflow). -/
inductive EvmRevert where
  | requireFailed (msg : String)
  | arithmeticPanic

/-- The `"age"` branch of `NULLIDRegistry.updateField` (contract lines
188-192; the `"ofacStatus"` branch lines 193-197 is identical):
`require(bytes(newValue).length == 1)`, then
`uint8 ageValue = uint8(bytes(newValue)[0]) - 48` under checked
arithmetic (underflow reverts), then `require(ageValue == 0 || ageValue
== 1)`, finally the store `identity.age = ageValue`, modelled as
returning the stored value. -/
def updateFieldAge (newValue : List ℕ) : Except EvmRevert ℕ :=
  if newValue.length = 1 then
    let c := newValue.getD 0 0
    if c < 48 then Except.error EvmRevert.arithmeticPanic
    else
      let v := c - 48
      if v = 0 ∨ v = 1 then Except.ok v
      else Except.error (EvmRevert.requireFailed ("Age must be 0 or 1"))
  else Except.error (EvmRevert.requireFailed ("Age value must be single character"))

end Registry

/-- The prime field used to instantiate the field-generic statements in
concrete witnesses. -/
instance : Fact (Nat.Prime 101) := ⟨by norm_num⟩

/-! Part: Generic fold and list helpers -/

section Helpers

variable {F : Type} [Field F]

theorem foldl_congr_fn {α β : Type} (l : List β) (f g : α → β → α) :
    ∀ s : α, (∀ acc : α, ∀ b ∈ l, f acc b = g acc b) →
      l.foldl f s = l.foldl g s := by
  induction l with
  | nil => intro s _; rfl
  | cons a l ih =>
    intro s h
    simp only [List.foldl_cons]
    rw [h s a (by simp)]
    exact ih _ (fun acc b hb => h acc b (by simp [hb]))

theorem natCast_foldl_add (l : List ℕ) (f : ℕ → ℕ) :
    ∀ s : ℕ, ((l.foldl (fun a i => a + f i) s : ℕ) : F) =
      l.foldl (fun a i => a + ((f i : ℕ) : F)) ((s : ℕ) : F) := by
  induction l with
  | nil => intro s; rfl
  | cons a l ih =>
    intro s
    simp only [List.foldl_cons]
    rw [ih (s + f a)]
    push_cast
    rfl

theorem slice_getD (l : List ℕ) (m n i : ℕ) (hi : i < n) :
    ((l.drop m).take n).getD i 0 = l.getD (m + i) 0 := by
  simp only [List.getD_eq_getElem?_getD]
  rw [List.getElem?_take, if_pos hi, List.getElem?_drop]

theorem take_drop_window_le {buf pat : List ℕ} {u : ℕ}
    (h : (buf.drop u).take pat.length = pat) (hu : u ≤ buf.length) :
    u + pat.length ≤ buf.length := by
  have hlen := congrArg List.length h
  simp only [List.length_take, List.length_drop] at hlen
  omega

end Helpers

/-! Part: First-occurrence scan (`indexOfPattern`) characterisation -/

section FindPattern

theorem findPatternFrom_some (buf pat : List ℕ) :
    ∀ (fuel t off : ℕ), findPatternFrom buf pat fuel t = some off →
      t ≤ off ∧ off < t + fuel ∧ (buf.drop off).take pat.length = pat ∧
      ∀ u, t ≤ u → u < off → (buf.drop u).take pat.length ≠ pat := by
  intro fuel
  induction fuel with
  | zero => intro t off h; simp [findPatternFrom] at h
  | succ fuel ih =>
    intro t off h
    rw [findPatternFrom] at h
    by_cases hm : (buf.drop t).take pat.length = pat
    · rw [if_pos hm] at h
      cases h
      exact ⟨Nat.le_refl _, by omega, hm, fun u h1 h2 => absurd (Nat.lt_of_le_of_lt h1 h2) (Nat.lt_irrefl _)⟩
    · rw [if_neg hm] at h
      obtain ⟨h1, h2, h3, h4⟩ := ih (t + 1) off h
      refine ⟨by omega, by omega, h3, fun u hu1 hu2 => ?_⟩
      by_cases he : u = t
      · exact he ▸ hm
      · exact h4 u (by omega) hu2

theorem findPatternFrom_none (buf pat : List ℕ) :
    ∀ (fuel t : ℕ), findPatternFrom buf pat fuel t = none →
      ∀ u, t ≤ u → u < t + fuel → (buf.drop u).take pat.length ≠ pat := by
  intro fuel
  induction fuel with
  | zero => intro t _ u h1 h2; omega
  | succ fuel ih =>
    intro t h u h1 h2
    rw [findPatternFrom] at h
    by_cases hm : (buf.drop t).take pat.length = pat
    · rw [if_pos hm] at h; cases h
    · rw [if_neg hm] at h
      by_cases he : u = t
      · exact he ▸ hm
      · exact ih (t + 1) h u (by omega) (by omega)

theorem indexOfPattern_some {buf pat : List ℕ} {off : ℕ}
    (h : indexOfPattern buf pat = some off) :
    off < buf.length ∧ (buf.drop off).take pat.length = pat ∧
      ∀ u < off, (buf.drop u).take pat.length ≠ pat := by
  obtain ⟨_, h2, h3, h4⟩ := findPatternFrom_some buf pat buf.length 0 off h
  exact ⟨by omega, h3, fun u hu => h4 u (Nat.zero_le u) hu⟩

theorem indexOfPattern_none {buf pat : List ℕ}
    (h : indexOfPattern buf pat = none) :
    ∀ u < buf.length, (buf.drop u).take pat.length ≠ pat :=
  fun u hu => findPatternFrom_none buf pat buf.length 0 h u (Nat.zero_le u) (by omega)

theorem indexOfPattern_isSome {buf pat : List ℕ} {u : ℕ} (hu : u < buf.length)
    (hm : (buf.drop u).take pat.length = pat) :
    (indexOfPattern buf pat).isSome := by
  cases hidx : indexOfPattern buf pat with
  | none => exact absurd hm (indexOfPattern_none hidx u hu)
  | some off => rfl

theorem indexOfPattern_eq_none_of_not_mem {buf pat : List ℕ} {b : ℕ}
    (hb : b ∈ pat) (hnb : ¬ b ∈ buf) : indexOfPattern buf pat = none := by
  cases hidx : indexOfPattern buf pat with
  | none => rfl
  | some off =>
    obtain ⟨_, h2, _⟩ := indexOfPattern_some hidx
    exact absurd (List.drop_subset off buf (List.take_subset _ _ (h2 ▸ hb))) hnb

end FindPattern

/-! Part: `oneHot` and `padTruncate` lemmas -/

section OneHotPad

theorem oneHot_length (L p : ℕ) : (oneHot L p).length = L := by
  simp [oneHot]

theorem oneHot_getD_self {L p : ℕ} (h : p < L) : (oneHot L p).getD p 0 = 1 := by
  simp [oneHot, List.getElem?_set, h]

theorem oneHot_getD_ne {L p j : ℕ} (h : j ≠ p) : (oneHot L p).getD j 0 = 0 := by
  simp only [oneHot, List.getD_eq_getElem?_getD,
    List.getElem?_set_ne (fun he => h he.symm), List.getElem?_replicate]
  by_cases hj : j < L <;> simp [hj]

theorem oneHot_out_of_range {L p : ℕ} (h : L ≤ p) :
    oneHot L p = List.replicate L 0 :=
  List.set_eq_of_length_le (by simpa using h)

theorem padTruncate_length (bytes : List ℕ) : (padTruncate bytes).length = 8192 := by
  simp only [padTruncate, List.length_append, List.length_take, List.length_replicate]
  omega

theorem padTruncate_getD (bytes : List ℕ) (i : ℕ) (hi : i < 8192) :
    (padTruncate bytes).getD i 0 = bytes.getD i 0 := by
  simp only [padTruncate, List.getD_eq_getElem?_getD]
  by_cases hb : i < bytes.length
  · rw [List.getElem?_append_left (by simp; omega), List.getElem?_take, if_pos hi]
  · rw [List.getElem?_append_right (by simp; omega), List.getElem?_replicate,
      List.getElem?_eq_none (by omega)]
    simp only [List.length_take]
    by_cases hlt : i - min 8192 bytes.length < 8192 - bytes.length <;> simp [hlt]

theorem padTruncate_idem (bytes : List ℕ) :
    padTruncate (padTruncate bytes) = padTruncate bytes := by
  show (padTruncate bytes).take 8192 ++
      List.replicate (8192 - (padTruncate bytes).length) 0 = padTruncate bytes
  rw [padTruncate_length bytes,
    List.take_of_length_le (Nat.le_of_eq (padTruncate_length bytes))]
  simp

end OneHotPad

/-! Part: Byte decomposition and chunk agreement -/

section HashAgreement

variable {F : Type} [Field F]

set_option maxRecDepth 8192 in
theorem byte_bits_sum : ∀ b < 256,
    (List.range 8).foldl (fun a j => a + b / 2 ^ j % 2 * 2 ^ j) 0 = b := by
  decide

theorem nat_byte_decomp {b : ℕ} (hb : b < 256) :
    Num2BitsSat (F := F) 8 ((b : ℕ) : F) := by
  refine ⟨fun j => ((b / 2 ^ j % 2 : ℕ) : F), fun j _ => ?_, ?_⟩
  · show ((b / 2 ^ j % 2 : ℕ) : F) * (((b / 2 ^ j % 2 : ℕ) : F) - 1) = 0
    rcases Nat.mod_two_eq_zero_or_one (b / 2 ^ j) with h | h <;> rw [h] <;> simp
  · show (List.range 8).foldl
        (fun acc j => acc + ((b / 2 ^ j % 2 : ℕ) : F) * 2 ^ j) 0 = ((b : ℕ) : F)
    have hcast := natCast_foldl_add (F := F) (List.range 8)
      (fun j => b / 2 ^ j % 2 * 2 ^ j) 0
    rw [byte_bits_sum b hb] at hcast
    rw [hcast, Nat.cast_zero]
    refine foldl_congr_fn _ _ _ _ (fun acc j _ => ?_)
    push_cast
    ring

theorem bits_fold_bound :
    ∀ (k : ℕ) (bits : ℕ → F), (∀ j < k, bits j = 0 ∨ bits j = 1) →
      ∃ n : ℕ, n < 2 ^ k ∧
        (List.range k).foldl (fun a j => a + bits j * 2 ^ j) 0 = (n : F) := by
  intro k
  induction k with
  | zero => exact fun bits _ => ⟨0, by norm_num, by simp⟩
  | succ k ih =>
    intro bits hbits
    obtain ⟨n, hn, hsum⟩ := ih bits (fun j hj => hbits j (by omega))
    rw [List.range_succ, List.foldl_append, hsum]
    simp only [List.foldl_cons, List.foldl_nil]
    rcases hbits k (by omega) with h | h
    · exact ⟨n, by have := Nat.pow_lt_pow_succ (a := 2) (by norm_num) (n := k); omega,
        by rw [h]; ring⟩
    · refine ⟨n + 2 ^ k, by have := Nat.pow_succ 2 k; omega, ?_⟩
      rw [h]; push_cast; ring

theorem slice_getD_eq_chunk (eml : List ℕ) (hlen : eml.length = 8192)
    (c i : ℕ) (hi : i < 31) :
    (((eml.drop (c * 31)).take 31).getD i 0 : F) =
      chunkBytes (F := F) (fun n => ((eml.getD n 0 : ℕ) : F)) 8192 c i := by
  rw [slice_getD eml (c * 31) 31 i hi, chunkBytes]
  by_cases h : c * 31 + i < 8192
  · rw [if_pos h]
  · rw [if_neg h, List.getD_eq_default _ _ (by omega), Nat.cast_zero]

theorem chunk_pack_eq (eml : List ℕ) (hlen : eml.length = 8192) (c : ℕ) :
    encodeBytesToFieldVal (F := F)
        (chunkBytes (fun n => ((eml.getD n 0 : ℕ) : F)) 8192 c) =
      ((pack31LE ((eml.drop (c * 31)).take 31) : ℕ) : F) := by
  rw [encodeBytesToFieldVal, pack31LE,
    natCast_foldl_add (F := F) _ (fun i => ((eml.drop (c * 31)).take 31).getD i 0 * 256 ^ i) 0,
    Nat.cast_zero]
  refine (foldl_congr_fn _ _ _ _ (fun acc i hi => ?_)).symm
  rw [← slice_getD_eq_chunk eml hlen c i (by simpa using hi)]
  push_cast
  ring

theorem seqFold_eq_buildCommitment (P : F → F → F) (eml : List ℕ)
    (hlen : eml.length = 8192) :
    seqPoseidonFold P (fun n => ((eml.getD n 0 : ℕ) : F)) 8192 265 =
      buildCommitment P eml := by
  rw [seqPoseidonFold, buildCommitment]
  exact foldl_congr_fn _ _ _ _
    (fun acc c _ => by rw [chunk_pack_eq eml hlen c])

end HashAgreement

/-! Part: Claim C1 -/

/-- Claim C1: for every buffer of exactly `MAX_LEN = 8192` bytes, the
commitment computed by the Input Builder (fold `h_0 = 0`,
`h_{i+1} = Poseidon(h_i, chunk_i)` over 265 chunks of 31 bytes each,
bytes packed little-endian as `byte[i] * 256^i`, final partial chunk
zero-padded) equals the unique `email_hash` value for which the
circuit's `SequentialPoseidonHash` constraint over the same buffer is
satisfiable.  Stated for an arbitrary field and an arbitrary two-input
hash `P`, applied by both components. -/
theorem claim1_hash_refinement {F : Type} [Field F] (P : F → F → F) (eml : List ℕ)
    (hlen : eml.length = 8192) (hbytes : ∀ b ∈ eml, b < 256) (h : F) :
    SequentialPoseidonHashSat P 8192 265 (fun n => ((eml.getD n 0 : ℕ) : F)) h ↔
      h = buildCommitment P eml := by
  constructor
  · rintro ⟨_, hh⟩
    rw [hh, seqFold_eq_buildCommitment P eml hlen]
  · rintro rfl
    refine ⟨fun c _ k _ => ?_, (seqFold_eq_buildCommitment P eml hlen).symm⟩
    show Num2BitsSat 8 (chunkBytes (fun n => ((eml.getD n 0 : ℕ) : F)) 8192 c k)
    rw [chunkBytes]
    by_cases hidx : c * 31 + k < 8192
    · rw [if_pos hidx]
      refine nat_byte_decomp (hbytes _ ?_)
      have hm : c * 31 + k < eml.length := hlen ▸ hidx
      rw [List.getD_eq_getElem eml 0 hm]
      exact List.getElem_mem hm
    · rw [if_neg hidx, ← Nat.cast_zero]
      exact nat_byte_decomp (by norm_num)

/-- Witness for C1: the all-zero 8192-byte buffer over `ZMod 101` with the
hash `P a b = a + b + 1`; the satisfiable hash value is exactly the
builder's commitment. -/
theorem claim1_hash_refinement_witness :
    SequentialPoseidonHashSat (F := ZMod 101) (fun a b => a + b + 1) 8192 265
      (fun n => (((List.replicate 8192 0).getD n 0 : ℕ) : ZMod 101))
      (buildCommitment (fun a b => a + b + 1) (List.replicate 8192 0)) :=
  (claim1_hash_refinement (fun a b => a + b + 1) (List.replicate 8192 0)
    (List.length_replicate 8192 0)
    (fun b hb => by rw [List.eq_of_mem_replicate hb]; norm_num) _).mpr rfl

/-! Part: Claims C2 and C3 -/

/-- Claim C2: for every assignment of buffer, pattern, and selector
signals, the circuit's `PatternMatcher` constraints are satisfied iff the
selector is boolean at every index, its entries over the valid window
`[0, maxLen - patLen]` sum to exactly 1, every entry outside that window
is 0, and for every pattern byte position `i` and candidate start `t` in
the valid window `selector[t] * (buffer[t+i] - pattern[i]) = 0`.  Stated
for the template parameters in the sensible range `1 ≤ patLen ≤ maxLen`
(the circuit instantiates `(8192, 5)`, `(8192, 3)`, `(8192, 10)`). -/
theorem claim2_patternMatcher_iff {F : Type} [Field F] (maxLen patLen : ℕ)
    (hp1 : 1 ≤ patLen) (hp2 : patLen ≤ maxLen) (eml pattern selector : ℕ → F) :
    PatternMatcherSat maxLen patLen eml pattern selector ↔
      ((∀ t < maxLen, selector t = 0 ∨ selector t = 1) ∧
       (List.range (maxLen - patLen + 1)).foldl (fun acc t => acc + selector t) 0 = 1 ∧
       (∀ u < maxLen, maxLen - patLen < u → selector u = 0) ∧
       (∀ i < patLen, ∀ t, t ≤ maxLen - patLen →
         selector t * (eml (t + i) - pattern i) = 0)) := by
  constructor
  · rintro ⟨hbool, hsum, hzero, hmatch⟩
    refine ⟨fun t ht => ?_, hsum, fun u hu hu2 => hzero u hu (by omega),
      fun i hi t ht => hmatch i hi t (by omega)⟩
    by_cases hw : t < maxLen - patLen + 1
    · rcases mul_eq_zero.mp (hbool t hw) with h | h
      · exact Or.inl h
      · exact Or.inr (sub_eq_zero.mp h)
    · exact Or.inl (hzero t ht (by omega))
  · rintro ⟨hbool, hsum, hzero, hmatch⟩
    refine ⟨fun t ht => ?_, hsum, fun u hu hu2 => hzero u hu (by omega),
      fun i hi t ht => hmatch i hi t (by omega)⟩
    rcases hbool t (by omega) with h | h <;> rw [h] <;> ring
/-- Witness for C2 at `maxLen = 3`, `patLen = 1` over `ZMod 101`, with the
selector one-hot at 0 and matching buffer/pattern. -/
theorem claim2_patternMatcher_iff_witness :
    PatternMatcherSat (F := ZMod 101) 3 1 (fun _ => 7) (fun _ => 7)
      (fun t => if t = 0 then 1 else 0) :=
  (claim2_patternMatcher_iff 3 1 (by norm_num) (by norm_num) _ _ _).mpr (by decide)

/-- Claim C3: the circuit's byte range-check constraints
(`ValidateByteRange`, i.e. `Num2Bits(8)` on the byte value) are
satisfiable iff the value is the image of a natural number in
`[0, 255]`; any other field value admits no satisfying witness — it is
rejected, never silently masked or reduced. -/
theorem claim3_byte_range_check {F : Type} [Field F] (v : F) :
    ValidateByteRangeSat v ↔ ∃ n : ℕ, n ≤ 255 ∧ v = (n : F) := by
  constructor
  · rintro ⟨bits, hbool, hsum⟩
    have hb : ∀ j < 8, bits j = 0 ∨ bits j = 1 := by
      intro j hj
      rcases mul_eq_zero.mp (hbool j hj) with h | h
      · exact Or.inl h
      · exact Or.inr (sub_eq_zero.mp h)
    obtain ⟨n, hn, hfold⟩ := bits_fold_bound 8 bits hb
    exact ⟨n, by omega, by rw [← hsum, hfold]⟩
  · rintro ⟨n, hn, rfl⟩
    exact nat_byte_decomp (by omega)

/-- Witness for C3: over `ZMod 101`, the byte value 37 passes the
range-check constraints. -/
theorem claim3_byte_range_check_witness :
    ValidateByteRangeSat ((37 : ℕ) : ZMod 101) :=
  (claim3_byte_range_check ((37 : ℕ) : ZMod 101)).mpr ⟨37, by norm_num, rfl⟩

/-! Part: Builder case analysis -/

section BuilderCases

variable {F : Type} [Field F]

theorem buildCircuitInput_ok_case (P : F → F → F) (bytes : List ℕ) {f t g : ℕ}
    (hf : indexOfPattern (padTruncate bytes) fromStrBytes = some f)
    (ht : indexOfPattern (padTruncate bytes) toStrBytes = some t)
    (hg : indexOfPattern (padTruncate bytes) atgStrBytes = some g) :
    buildCircuitInput P bytes = Except.ok
      { eml_commitment := buildCommitment P (padTruncate bytes)
        eml := padTruncate bytes
        from_bytes := fromStrBytes
        to_bytes := toStrBytes
        atg_bytes := atgStrBytes
        sel_from := oneHot 8192 f
        sel_to := oneHot 8192 t
        sel_atg := oneHot 8192 g } := by
  simp only [buildCircuitInput, hf, ht, hg]

theorem buildCircuitInput_error_case (P : F → F → F) (bytes : List ℕ)
    (h : indexOfPattern (padTruncate bytes) fromStrBytes = none ∨
         indexOfPattern (padTruncate bytes) toStrBytes = none ∨
         indexOfPattern (padTruncate bytes) atgStrBytes = none) :
    buildCircuitInput P bytes = Except.error BuildError.requiredLiteralsNotFound := by
  rcases hf : indexOfPattern (padTruncate bytes) fromStrBytes with _ | f <;>
    rcases ht : indexOfPattern (padTruncate bytes) toStrBytes with _ | t <;>
      rcases hg : indexOfPattern (padTruncate bytes) atgStrBytes with _ | g <;>
        simp only [buildCircuitInput, hf, ht, hg] <;>
          (rcases h with h | h | h; all_goals simp_all)

theorem buildCircuitInput_ok_inv {P : F → F → F} {bytes : List ℕ}
    {a : CircuitInput F} (h : buildCircuitInput P bytes = Except.ok a) :
    ∃ f t g, indexOfPattern (padTruncate bytes) fromStrBytes = some f ∧
      indexOfPattern (padTruncate bytes) toStrBytes = some t ∧
      indexOfPattern (padTruncate bytes) atgStrBytes = some g ∧
      a = { eml_commitment := buildCommitment P (padTruncate bytes)
            eml := padTruncate bytes
            from_bytes := fromStrBytes
            to_bytes := toStrBytes
            atg_bytes := atgStrBytes
            sel_from := oneHot 8192 f
            sel_to := oneHot 8192 t
            sel_atg := oneHot 8192 g } := by
  rcases hf : indexOfPattern (padTruncate bytes) fromStrBytes with _ | f
  · rw [buildCircuitInput_error_case P bytes (Or.inl hf)] at h
    exact Except.noConfusion h
  rcases ht : indexOfPattern (padTruncate bytes) toStrBytes with _ | t
  · rw [buildCircuitInput_error_case P bytes (Or.inr (Or.inl ht))] at h
    exact Except.noConfusion h
  rcases hg : indexOfPattern (padTruncate bytes) atgStrBytes with _ | g
  · rw [buildCircuitInput_error_case P bytes (Or.inr (Or.inr hg))] at h
    exact Except.noConfusion h
  refine ⟨f, t, g, rfl, rfl, rfl, ?_⟩
  rw [buildCircuitInput_ok_case P bytes hf ht hg] at h
  injection h with h2
  exact h2.symm

end BuilderCases

/-! Part: More builder helpers -/

section BuilderMore

theorem contains_isSome {buf pat : List ℕ} (hpat : pat ≠ [])
    (h : ∃ u, (buf.drop u).take pat.length = pat) :
    (indexOfPattern buf pat).isSome := by
  obtain ⟨u, hu⟩ := h
  by_cases hlt : u < buf.length
  · exact indexOfPattern_isSome hlt hu
  · rw [List.drop_eq_nil_of_le (by omega)] at hu
    simp only [List.take_nil] at hu
    exact absurd hu.symm hpat

theorem not_contains_none {buf pat : List ℕ}
    (h : ∀ u, (buf.drop u).take pat.length ≠ pat) :
    indexOfPattern buf pat = none := by
  cases hidx : indexOfPattern buf pat with
  | none => rfl
  | some off => exact absurd (indexOfPattern_some hidx).2.1 (h off)

theorem oneHot_window_spec {buf pat : List ℕ} {off : ℕ} (hlen : buf.length = 8192)
    (hsome : indexOfPattern buf pat = some off) :
    off ≤ 8192 - pat.length ∧ (oneHot 8192 off).getD off 0 = 1 ∧
    (∀ j, 8192 - pat.length + 1 ≤ j → (oneHot 8192 off).getD j 0 = 0) ∧
    (∀ j, j ≠ off → (oneHot 8192 off).getD j 0 = 0) := by
  obtain ⟨hlt, hmatch, _⟩ := indexOfPattern_some hsome
  have hle := take_drop_window_le hmatch (le_of_lt hlt)
  rw [hlen] at hlt hle
  exact ⟨by omega, oneHot_getD_self (by omega),
    fun j hj => oneHot_getD_ne (by omega), fun j hj => oneHot_getD_ne hj⟩

theorem indexOfPattern_eq_some_of {buf pat : List ℕ} {off : ℕ}
    (hlt : off < buf.length)
    (hmatch : (buf.drop off).take pat.length = pat)
    (hmin : ∀ u < off, (buf.drop u).take pat.length ≠ pat) :
    indexOfPattern buf pat = some off := by
  cases hidx : indexOfPattern buf pat with
  | none => exact absurd hmatch (indexOfPattern_none hidx off hlt)
  | some o =>
    obtain ⟨ho, hom, homin⟩ := indexOfPattern_some hidx
    by_cases hcmp : o = off
    · rw [hcmp]
    · rcases Nat.lt_or_ge o off with hl | hl
      · exact absurd hom (hmin o hl)
      · exact absurd hmatch (homin off (by omega))

end BuilderMore

/-! Part: Claim C4 -/

/-- Counterexample to C4 as stated: the error produced by the builder does
not identify the missing pattern.  On a buffer containing `From:` and
`@gmail.com` but no `To:`, and on a buffer containing `To:` and
`@gmail.com` but no `From:`, `buildCircuitInput` fails with the *same*
generic error value (the source throws one fixed message listing all
three literals), so the failure cannot identify which pattern is
missing. -/
theorem claim4_counterexample :
    buildCircuitInput (F := ZMod 101) (fun a b => a + b)
        [70, 114, 111, 109, 58, 32, 97, 64, 103, 109, 97, 105, 108, 46, 99, 111, 109] =
      Except.error BuildError.requiredLiteralsNotFound ∧
    buildCircuitInput (F := ZMod 101) (fun a b => a + b)
        [84, 111, 58, 32, 97, 64, 103, 109, 97, 105, 108, 46, 99, 111, 109] =
      Except.error BuildError.requiredLiteralsNotFound := by
  constructor
  · refine buildCircuitInput_error_case _ _
      (Or.inr (Or.inl (indexOfPattern_eq_none_of_not_mem (b := 84) (by decide) ?_)))
    intro hmem
    rcases List.mem_append.mp hmem with h | h
    · revert h; decide
    · exact absurd (List.eq_of_mem_replicate h) (by decide)
  · refine buildCircuitInput_error_case _ _
      (Or.inl (indexOfPattern_eq_none_of_not_mem (b := 70) (by decide) ?_))
    intro hmem
    rcases List.mem_append.mp hmem with h | h
    · revert h; decide
    · exact absurd (List.eq_of_mem_replicate h) (by decide)

/-- Claim C4 (amended): if any of the three patterns does not occur in the
padded 8192-byte buffer, `buildCircuitInput` fails with the single
generic required-literals-not-found error (which does **not** identify
the missing pattern) and produces no assignment — the throw happens
before the hash fold is entered; if all three occur, it succeeds. -/
theorem claim4_build_error_handling {F : Type} [Field F] (P : F → F → F)
    (bytes : List ℕ) :
    ((∃ u, ((padTruncate bytes).drop u).take fromStrBytes.length = fromStrBytes) →
     (∃ u, ((padTruncate bytes).drop u).take toStrBytes.length = toStrBytes) →
     (∃ u, ((padTruncate bytes).drop u).take atgStrBytes.length = atgStrBytes) →
     ∃ a, buildCircuitInput P bytes = Except.ok a) ∧
    (((∀ u, ((padTruncate bytes).drop u).take fromStrBytes.length ≠ fromStrBytes) ∨
      (∀ u, ((padTruncate bytes).drop u).take toStrBytes.length ≠ toStrBytes) ∨
      (∀ u, ((padTruncate bytes).drop u).take atgStrBytes.length ≠ atgStrBytes)) →
     buildCircuitInput P bytes = Except.error BuildError.requiredLiteralsNotFound) := by
  constructor
  · intro h1 h2 h3
    obtain ⟨f, hf⟩ := Option.isSome_iff_exists.mp (contains_isSome (by decide) h1)
    obtain ⟨t, ht⟩ := Option.isSome_iff_exists.mp (contains_isSome (by decide) h2)
    obtain ⟨g, hg⟩ := Option.isSome_iff_exists.mp (contains_isSome (by decide) h3)
    exact ⟨_, buildCircuitInput_ok_case P bytes hf ht hg⟩
  · intro h
    refine buildCircuitInput_error_case P bytes ?_
    rcases h with h | h | h
    · exact Or.inl (not_contains_none h)
    · exact Or.inr (Or.inl (not_contains_none h))
    · exact Or.inr (Or.inr (not_contains_none h))

/-- Witness for C4: a buffer containing all three literals builds
successfully. -/
theorem claim4_build_error_handling_witness :
    ∃ a, buildCircuitInput (F := ZMod 101) (fun a b => a + b)
        [70, 114, 111, 109, 58, 32, 84, 111, 58, 32, 120, 64, 103, 109, 97,
          105, 108, 46, 99, 111, 109] = Except.ok a :=
  (claim4_build_error_handling (fun a b => a + b) _).1
    ⟨0, by decide⟩ ⟨6, by decide⟩ ⟨11, by decide⟩

/-! Part: Claim C5 -/

/-- Claim C5: whenever `buildCircuitInput` succeeds, each emitted selector
has length `MAX_LEN = 8192`, carries the value 1 at exactly one index —
the offset of the corresponding pattern's first occurrence in the padded
buffer — and 0 at every other index, and the buffer bytes from that
offset over the pattern's length equal the pattern bytes exactly. -/
theorem claim5_selector_correct {F : Type} [Field F] (P : F → F → F)
    (bytes : List ℕ) (a : CircuitInput F)
    (hok : buildCircuitInput P bytes = Except.ok a) :
    ∀ ps ∈ [(fromStrBytes, a.sel_from), (toStrBytes, a.sel_to),
        (atgStrBytes, a.sel_atg)],
      ps.2.length = 8192 ∧
      ∃ off, indexOfPattern (padTruncate bytes) ps.1 = some off ∧
        ps.2.getD off 0 = 1 ∧
        (∀ j < 8192, j ≠ off → ps.2.getD j 0 = 0) ∧
        ((padTruncate bytes).drop off).take ps.1.length = ps.1 ∧
        ∀ u < off, ((padTruncate bytes).drop u).take ps.1.length ≠ ps.1 := by
  obtain ⟨f, t, g, hf, ht, hg, rfl⟩ := buildCircuitInput_ok_inv hok
  have key : ∀ pat off, indexOfPattern (padTruncate bytes) pat = some off →
      (oneHot 8192 off).length = 8192 ∧
      ∃ o, indexOfPattern (padTruncate bytes) pat = some o ∧
        (oneHot 8192 off).getD o 0 = 1 ∧
        (∀ j < 8192, j ≠ o → (oneHot 8192 off).getD j 0 = 0) ∧
        ((padTruncate bytes).drop o).take pat.length = pat ∧
        ∀ u < o, ((padTruncate bytes).drop u).take pat.length ≠ pat := by
    intro pat off hsome
    obtain ⟨hlt, hmatch, hmin⟩ := indexOfPattern_some hsome
    rw [padTruncate_length] at hlt
    exact ⟨oneHot_length _ _, off, hsome, oneHot_getD_self hlt,
      fun j _ hj => oneHot_getD_ne hj, hmatch, hmin⟩
  intro ps hps
  simp only [List.mem_cons, List.not_mem_nil, or_false] at hps
  rcases hps with rfl | rfl | rfl
  · exact key fromStrBytes f hf
  · exact key toStrBytes t ht
  · exact key atgStrBytes g hg

/-- Witness for C5 at a concrete buffer containing all three patterns,
for the `From:` pattern found at offset 0. -/
theorem claim5_selector_correct_witness :
    (oneHot 8192 0).length = 8192 ∧
    ∃ off, indexOfPattern
        (padTruncate [70, 114, 111, 109, 58, 32, 84, 111, 58, 32, 120, 64,
          103, 109, 97, 105, 108, 46, 99, 111, 109]) fromStrBytes = some off ∧
      (oneHot 8192 0).getD off 0 = 1 ∧
      (∀ j < 8192, j ≠ off → (oneHot 8192 0).getD j 0 = 0) ∧
      ((padTruncate [70, 114, 111, 109, 58, 32, 84, 111, 58, 32, 120, 64,
          103, 109, 97, 105, 108, 46, 99, 111, 109]).drop off).take
          fromStrBytes.length = fromStrBytes ∧
      ∀ u < off, ((padTruncate [70, 114, 111, 109, 58, 32, 84, 111, 58, 32,
          120, 64, 103, 109, 97, 105, 108, 46, 99, 111,
          109]).drop u).take fromStrBytes.length ≠ fromStrBytes := by
  have hf : indexOfPattern
      (padTruncate [70, 114, 111, 109, 58, 32, 84, 111, 58, 32, 120, 64,
        103, 109, 97, 105, 108, 46, 99, 111, 109]) fromStrBytes = some 0 :=
    indexOfPattern_eq_some_of (by rw [padTruncate_length]; omega) (by decide)
      (fun u hu => absurd hu (Nat.not_lt_zero u))
  have ht : indexOfPattern
      (padTruncate [70, 114, 111, 109, 58, 32, 84, 111, 58, 32, 120, 64,
        103, 109, 97, 105, 108, 46, 99, 111, 109]) toStrBytes = some 6 :=
    indexOfPattern_eq_some_of (by rw [padTruncate_length]; omega) (by decide)
      (by decide)
  have hg : indexOfPattern
      (padTruncate [70, 114, 111, 109, 58, 32, 84, 111, 58, 32, 120, 64,
        103, 109, 97, 105, 108, 46, 99, 111, 109]) atgStrBytes = some 11 :=
    indexOfPattern_eq_some_of (by rw [padTruncate_length]; omega) (by decide)
      (by decide)
  exact claim5_selector_correct (F := ZMod 101) (fun x y => x + y) _ _
    (buildCircuitInput_ok_case _ _ hf ht hg) (fromStrBytes, oneHot 8192 0)
    (List.Mem.head _)

/-! Part: Claim C6 -/

/-- Claim C6: for every raw input, the builder's buffer is exactly 8192
bytes — the first 8192 input bytes, zero-padded on the right — and the
whole build (pattern search and hash alike) observes only that padded
buffer; a pattern fully contained in the padded buffer (offset 0 and the
last valid offset included) is found, while any occurrence found lies
entirely inside the 8192-byte window, so material cut off by truncation
is treated as absent. -/
theorem claim6_pad_truncate {F : Type} [Field F] (P : F → F → F)
    (bytes : List ℕ) :
    (padTruncate bytes).length = 8192 ∧
    (∀ i < 8192, (padTruncate bytes).getD i 0 = bytes.getD i 0) ∧
    buildCircuitInput P bytes = buildCircuitInput P (padTruncate bytes) ∧
    (∀ pat : List ℕ, ∀ u, u + pat.length ≤ 8192 →
      ((padTruncate bytes).drop u).take pat.length = pat →
      (indexOfPattern (padTruncate bytes) pat).isSome) ∧
    (∀ pat : List ℕ, ∀ u, indexOfPattern (padTruncate bytes) pat = some u →
      u + pat.length ≤ 8192) := by
  refine ⟨padTruncate_length bytes, fun i hi => padTruncate_getD bytes i hi, ?_, ?_, ?_⟩
  · simp only [buildCircuitInput, padTruncate_idem bytes]
  · intro pat u hle hmatch
    by_cases hpat : pat = []
    · subst hpat
      exact indexOfPattern_isSome (u := 0)
        (by rw [padTruncate_length]; omega) (by simp)
    · exact indexOfPattern_isSome
        (by rw [padTruncate_length]
            have := List.length_pos.mpr hpat
            omega) hmatch
  · intro pat u hsome
    obtain ⟨hlt, hmatch, _⟩ := indexOfPattern_some hsome
    have hle := take_drop_window_le hmatch (le_of_lt hlt)
    rw [padTruncate_length] at hle
    exact hle

/-- Witness for C6: a concrete 21-byte input; the padded buffer has
length 8192 and `To:` (fully inside the window at offset 6) is found. -/
theorem claim6_pad_truncate_witness :
    (padTruncate [70, 114, 111, 109, 58, 32, 84, 111, 58, 32, 120, 64, 103,
        109, 97, 105, 108, 46, 99, 111, 109]).length = 8192 ∧
    (indexOfPattern (padTruncate [70, 114, 111, 109, 58, 32, 84, 111, 58, 32,
        120, 64, 103, 109, 97, 105, 108, 46, 99, 111, 109]) toStrBytes).isSome :=
  ⟨(claim6_pad_truncate (F := ZMod 101) (fun x y => x + y) _).1,
    (claim6_pad_truncate (F := ZMod 101) (fun x y => x + y) _).2.2.2.1
      toStrBytes 6 (by decide) (by decide)⟩

/-! Part: Claim C7 -/

/-- Claim C7: the builder is a deterministic pure function of its input
bytes — byte-identical inputs yield identical assignments (the embedding
is a function, and the source performs no effectful or nondeterministic
computation on the build path). -/
theorem claim7_build_deterministic {F : Type} [Field F] (P : F → F → F)
    (b1 b2 : List ℕ) (h : b1 = b2) :
    buildCircuitInput P b1 = buildCircuitInput P b2 := by
  rw [h]

/-- Witness for C7 at a concrete input. -/
theorem claim7_build_deterministic_witness :
    buildCircuitInput (F := ZMod 101) (fun x _ => x) [1, 2, 3] =
      buildCircuitInput (fun x _ => x) [1, 2, 3] :=
  claim7_build_deterministic (fun x _ => x) [1, 2, 3] [1, 2, 3] rfl

/-! Part: Claim C8 -/

/-- Counterexample to C8 as stated: the builder performs no valid-window
validation and has no `SelectorWindowViolation` failure.  Fed the offset
8190 — outside the `From:` valid window `[0, 8187]` — the selector
construction step (`oneHot`) does not fail: it returns an ordinary
8192-entry selector carrying the 1 at index 8190. -/
theorem claim8_counterexample :
    (oneHot 8192 8190).getD 8190 0 = 1 ∧ (oneHot 8192 8190).length = 8192 :=
  ⟨oneHot_getD_self (by norm_num), oneHot_length 8192 8190⟩

/-- Claim C8 (amended): the builder performs no valid-window check on
found offsets and has no `SelectorWindowViolation` error: its only
failure value is the generic required-literals-not-found error, and
`oneHot` maps any offset below `MAX_LEN` (window or not) to a selector
with the 1 at that offset, and any offset at or beyond `MAX_LEN`
silently to the all-zero selector.  (Out-of-window offsets nonetheless
never arise from the first-occurrence search — see C10.) -/
theorem claim8_no_window_validation {F : Type} [Field F] (P : F → F → F) :
    (∀ bytes e, buildCircuitInput P bytes = Except.error e →
      e = BuildError.requiredLiteralsNotFound) ∧
    (∀ pos < 8192, (oneHot 8192 pos).getD pos 0 = 1) ∧
    (∀ pos, 8192 ≤ pos → oneHot 8192 pos = List.replicate 8192 0) := by
  refine ⟨fun bytes e _ => ?_, fun pos hpos => oneHot_getD_self hpos,
    fun pos hpos => oneHot_out_of_range hpos⟩
  cases e
  rfl

/-- Witness for C8 (amended): offset 9000 is past the buffer and yields
the all-zero selector without any error. -/
theorem claim8_no_window_validation_witness :
    oneHot 8192 9000 = List.replicate 8192 0 :=
  (claim8_no_window_validation (F := ZMod 101) (fun x _ => x)).2.2 9000 (by norm_num)

/-! Part: Claim C9 -/

/-- Counterexample to C9 as stated: a non-digit input does *not* corrupt
the stored value.  For the single character `'!'` (code 33) the
subtraction `uint8(bytes(newValue)[0]) - 48` underflows and Solidity 0.8
checked arithmetic reverts the transaction; nothing is stored. -/
theorem claim9_counterexample :
    updateFieldAge [33] = Except.error EvmRevert.arithmeticPanic := rfl

/-- Claim C9 (amended): the registry's numeric-field update path decodes
the 0/1 flag from a single-character string as `charCode - 48`, but the
decode is guarded: the call stores a value iff the input is exactly the
single character `'0'` (code 48, storing 0) or `'1'` (code 49, storing
1); every other input — non-digit inputs included — reverts (checked
underflow below code 48, `require` failure otherwise), so the stored
value is never corrupted. -/
theorem claim9_updateField_flag_iff (bs : List ℕ) (v : ℕ) :
    updateFieldAge bs = Except.ok v ↔
      (bs = [48] ∧ v = 0) ∨ (bs = [49] ∧ v = 1) := by
  constructor
  · intro h
    simp only [updateFieldAge] at h
    split at h
    case isTrue h1 =>
      obtain ⟨c, rfl⟩ := List.length_eq_one.mp h1
      simp only [List.getD_cons_zero] at h
      split at h
      case isTrue => exact Except.noConfusion h
      case isFalse h2 =>
        split at h
        case isTrue h3 =>
          injection h with h4
          rcases h3 with h3 | h3
          · exact Or.inl ⟨by rw [show c = 48 by omega], by omega⟩
          · exact Or.inr ⟨by rw [show c = 49 by omega], by omega⟩
        case isFalse => exact Except.noConfusion h
    case isFalse => exact Except.noConfusion h
  · rintro (⟨rfl, rfl⟩ | ⟨rfl, rfl⟩) <;> rfl

/-- Witness for C9 (amended): the single character `'1'` stores the
flag 1. -/
theorem claim9_updateField_flag_iff_witness :
    updateFieldAge [49] = Except.ok 1 :=
  (claim9_updateField_flag_iff [49] 1).mpr (Or.inr ⟨rfl, rfl⟩)

/-! Part: Claim C10 -/

/-- Claim C10: although the builder performs no explicit valid-window
check, every selector it emits automatically satisfies the circuit's
window constraints: the first-occurrence offset of each pattern in the
exactly-8192-byte buffer lies in `[0, 8192 - patLen]`, the selector's
single 1 falls at that in-window offset, and every entry at any index
`≥ 8192 - patLen + 1` (and indeed at every index other than the offset)
is 0. -/
theorem claim10_selector_window_invariant {F : Type} [Field F] (P : F → F → F)
    (bytes : List ℕ) (a : CircuitInput F)
    (hok : buildCircuitInput P bytes = Except.ok a) :
    ∀ ps ∈ [(fromStrBytes, a.sel_from), (toStrBytes, a.sel_to),
        (atgStrBytes, a.sel_atg)],
      ∃ off, indexOfPattern (padTruncate bytes) ps.1 = some off ∧
        off ≤ 8192 - ps.1.length ∧
        ps.2.getD off 0 = 1 ∧
        (∀ j, 8192 - ps.1.length + 1 ≤ j → ps.2.getD j 0 = 0) ∧
        (∀ j, j ≠ off → ps.2.getD j 0 = 0) := by
  obtain ⟨f, t, g, hf, ht, hg, rfl⟩ := buildCircuitInput_ok_inv hok
  intro ps hps
  simp only [List.mem_cons, List.not_mem_nil, or_false] at hps
  rcases hps with rfl | rfl | rfl
  · obtain ⟨w1, w2, w3, w4⟩ := oneHot_window_spec (padTruncate_length bytes) hf
    exact ⟨f, hf, w1, w2, w3, w4⟩
  · obtain ⟨w1, w2, w3, w4⟩ := oneHot_window_spec (padTruncate_length bytes) ht
    exact ⟨t, ht, w1, w2, w3, w4⟩
  · obtain ⟨w1, w2, w3, w4⟩ := oneHot_window_spec (padTruncate_length bytes) hg
    exact ⟨g, hg, w1, w2, w3, w4⟩

/-- Witness for C10 at a concrete buffer, for the `To:` pattern found at
offset 6, well inside its valid window `[0, 8189]`. -/
theorem claim10_selector_window_invariant_witness :
    ∃ off, indexOfPattern
        (padTruncate [70, 114, 111, 109, 58, 32, 84, 111, 58, 32, 120, 64,
          103, 109, 97, 105, 108, 46, 99, 111, 109]) toStrBytes = some off ∧
      off ≤ 8192 - toStrBytes.length ∧
      (oneHot 8192 6).getD off 0 = 1 ∧
      (∀ j, 8192 - toStrBytes.length + 1 ≤ j → (oneHot 8192 6).getD j 0 = 0) ∧
      (∀ j, j ≠ off → (oneHot 8192 6).getD j 0 = 0) := by
  have hf : indexOfPattern
      (padTruncate [70, 114, 111, 109, 58, 32, 84, 111, 58, 32, 120, 64,
        103, 109, 97, 105, 108, 46, 99, 111, 109]) fromStrBytes = some 0 :=
    indexOfPattern_eq_some_of (by rw [padTruncate_length]; omega) (by decide)
      (fun u hu => absurd hu (Nat.not_lt_zero u))
  have ht : indexOfPattern
      (padTruncate [70, 114, 111, 109, 58, 32, 84, 111, 58, 32, 120, 64,
        103, 109, 97, 105, 108, 46, 99, 111, 109]) toStrBytes = some 6 :=
    indexOfPattern_eq_some_of (by rw [padTruncate_length]; omega) (by decide)
      (by decide)
  have hg : indexOfPattern
      (padTruncate [70, 114, 111, 109, 58, 32, 84, 111, 58, 32, 120, 64,
        103, 109, 97, 105, 108, 46, 99, 111, 109]) atgStrBytes = some 11 :=
    indexOfPattern_eq_some_of (by rw [padTruncate_length]; omega) (by decide)
      (by decide)
  exact claim10_selector_window_invariant (F := ZMod 101) (fun x y => x + y) _ _
    (buildCircuitInput_ok_case _ _ hf ht hg) (toStrBytes, oneHot 8192 6)
    (List.Mem.tail _ (List.Mem.head _))
